import Mathlib

/-!
Verification of `src/build_linux/clang-tidy/filter_clang_tidy.py`.

The script is a linear pipeline: read a config file listing excluded
directories, read a CMake compilation database, partition the database
entries into included/excluded lists by a substring test on the entry's
directory, optionally rewrite `-I<path>` include flags of included
entries to `-isystem <path>` for excluded paths, and write the two lists
out.

This file gives a shallow embedding of that pipeline.  The script runs
on POSIX paths (`os.path.sep = '/'`); the `os.path` helpers
(`dirname`, `relpath`, `join`) are embedded for that separator.
`os.path.relpath` is embedded for absolute, already-normalized
arguments (no `.` or `..` segments): on such arguments
`os.path.abspath` only collapses repeated separators, which the
nonempty-segment filter below performs anyway.
-/

namespace FilterClangTidy

/-- `os.path.sep` on the platform the script targets (POSIX). -/
def sep : Char := '/'

/-- One object of the JSON compilation database: a `file` path, a
`command` string, and the remaining key/value pairs, which the script
never touches. -/
structure CompileEntry where
  file : String
  command : String
  other : List (String × String)
deriving DecidableEq

/-- Module-level `GRACEFUL_EXIT = False` of the script: the default
mode for a missing input file is the fatal one. -/
def GRACEFUL_EXIT : Bool := false

/-- Outcome of a loader stage.  `exitSuccess msg` models
`print(msg); sys.exit(0)` (message printed, process status zero);
`exitFailure msg` models `raise SystemExit(msg)` (message printed,
process status nonzero). -/
inductive LoadOutcome (α : Type) where
  | ok : α → LoadOutcome α
  | exitSuccess : String → LoadOutcome α
  | exitFailure : String → LoadOutcome α
deriving DecidableEq

/-- `read_config`, lines 113-115: one excluded directory string built
from one inner array of the config file:
`exclude = os.path.sep + os.path.sep.join(exclude_raw)`. -/
def mkExclude (segs : List String) : String :=
  "/" ++ String.intercalate "/" segs

/-- The `excludes` list built by the `read_config` loop. -/
def readExcludes (raw : List (List String)) : List String :=
  raw.map mkExclude

/-- `read_config`, lines 100-115: existence check on the config path,
then the exclude-string construction.  The file-system lookup
`os.path.exists(path_config)` is a parameter, the parsed JSON content
another. -/
def readConfig (graceful : Bool) (configExists : Bool) (pathConfig : String)
    (raw : List (List String)) : LoadOutcome (List String) :=
  if !configExists then
    if graceful then
      .exitSuccess ("** ERROR - directory exclusion configuration is missing:\n" ++ pathConfig)
    else
      .exitFailure ("** FATAL - directory exclusion configuration is missing:\n" ++ pathConfig)
  else
    .ok (readExcludes raw)

/-- `read_commands`, lines 127-136: existence check on
`<build>/compile_commands.json`, then the parsed entry list is taken
as-is. -/
def readCommands (graceful : Bool) (databaseExists : Bool) (pathDatabase : String)
    (db : List CompileEntry) : LoadOutcome (List CompileEntry) :=
  if !databaseExists then
    if graceful then
      .exitSuccess ("** ERROR - CMake-generated compilation database is missing:\n" ++ pathDatabase)
    else
      .exitFailure ("** FATAL - CMake-generated compilation database is missing:\n" ++ pathDatabase)
  else
    .ok db

/-- Separator-join of a list of chunks: `glue s [a, b, c] = a ++ s ++ b
++ s ++ c`.  Embeds both `'/'.join` (via `os.path.join` on relative
segments) and serves as the decomposition skeleton for `str.replace`. -/
def glue (s : List Char) : List (List Char) → List Char
  | [] => []
  | [p] => p
  | p :: q :: ps => p ++ s ++ glue s (q :: ps)

/-- Segments of a POSIX path: `[x for x in p.split('/') if x]`.
The accumulator holds the current segment reversed. -/
def segsGo : List Char → List Char → List (List Char)
  | [], acc => if acc.isEmpty then [] else [acc.reverse]
  | c :: t, acc =>
    if c = '/' then
      (if acc.isEmpty then segsGo t [] else acc.reverse :: segsGo t [])
    else segsGo t (c :: acc)

/-- Nonempty `'/'`-separated segments of a path. -/
def pathSegs (p : List Char) : List (List Char) :=
  segsGo p []

/-- Length of the common prefix of two segment lists
(`os.path.commonprefix` on lists). -/
def commonPrefixLen : List (List Char) → List (List Char) → Nat
  | a :: as, b :: bs => if a = b then commonPrefixLen as bs + 1 else 0
  | _, _ => 0

/-- `posixpath.relpath(path, start)` for absolute, already-normalized
arguments: segment lists, common prefix, `['..'] * (len(start)-i) +
path[i:]`, joined with `'/'` (or `'.'` when empty). -/
def relpathAbs (path start : List Char) : List Char :=
  let pl := pathSegs path
  let sl := pathSegs start
  let i := commonPrefixLen sl pl
  let rel := List.replicate (sl.length - i) ['.', '.'] ++ pl.drop i
  if rel.isEmpty then ['.'] else glue ['/'] rel

/-- `posixpath.dirname(p)`: everything before the last separator, the
result right-stripped of separators unless it consists of separators
only. -/
def dirname (p : List Char) : List Char :=
  let head := (p.reverse.dropWhile (fun c => c ≠ '/')).reverse
  if head.isEmpty || head.all (fun c => c = '/') then head
  else (head.reverse.dropWhile (fun c => c = '/')).reverse

/-- Python's substring test `needle in hay`. -/
def listContains (needle : List Char) : List Char → Bool
  | [] => needle.isEmpty
  | c :: t => needle.isPrefixOf (c :: t) || listContains needle t

/-- `filter_sources`, line 152: `path_str = os.path.sep +
os.path.relpath(os.path.dirname(command['file']), path_root)`. -/
def pathStr (root : String) (e : CompileEntry) : List Char :=
  sep :: relpathAbs (dirname e.file.data) root.data

/-- `filter_sources`, lines 153-157: `include_folder` starts `True` and
the loop over `excludes` breaks at the first substring match.  The
loop-with-break computes exactly the negation of a short-circuit
existence test. -/
def includeFolder (root : String) (excludes : List String) (e : CompileEntry) : Bool :=
  !(excludes.any fun ex => listContains ex.data (pathStr root e))

/-- `filter_sources`, lines 147-166: each entry is appended to
`commands_inc` or `commands_exc` in the order encountered. -/
def filterSources (root : String) (excludes : List String)
    (cmds : List CompileEntry) : List CompileEntry × List CompileEntry :=
  cmds.foldl
    (fun acc c =>
      if includeFolder root excludes c then (acc.1 ++ [c], acc.2)
      else (acc.1, acc.2 ++ [c]))
    ([], [])

/-- `filter_headers`, line 178: `value.lstrip(os.path.sep)`. -/
def stripSeps (s : String) : String :=
  ⟨s.data.dropWhile (fun c => c = '/')⟩

/-- `posixpath.join(a, b)` for two arguments. -/
def pathJoin (a b : String) : String :=
  if b.data.head? = some '/' then b
  else if a.data = [] ∨ a.data.getLast? = some '/' then a ++ b
  else a ++ "/" ++ b

/-- `filter_headers`, line 182: `header_include = f'-I{exclude_path}'`
with `exclude_path = os.path.join(path_root, exclude)`. -/
def headerInclude (root ex : String) : String :=
  "-I" ++ pathJoin root ex

/-- `filter_headers`, line 186: `header_isystem = f'-isystem {exclude_path}'`. -/
def headerIsystem (root ex : String) : String :=
  "-isystem " ++ pathJoin root ex

/-- `str.replace(old, new)` for a nonempty `old`, with explicit fuel:
scan left to right, on a match emit `new` and skip `old.length`
characters, otherwise emit one character.  The fuel only makes the
recursion structural; `pyReplace` supplies enough of it. -/
def replaceFuel (old new : List Char) : Nat → List Char → List Char
  | _, [] => []
  | 0, c :: t => c :: t
  | f + 1, c :: t =>
    if old.isPrefixOf (c :: t) then
      new ++ replaceFuel old new f (t.drop (old.length - 1))
    else
      c :: replaceFuel old new f t

/-- Python `s.replace(old, new)` for nonempty `old` (every pattern the
script replaces starts with `-I`). -/
def pyReplace (old new s : List Char) : List Char :=
  replaceFuel old new s.length s

/-- `filter_headers`, lines 181-187, body of the inner loop: one
exclude applied to one command string (the exclude already stripped of
leading separators). -/
def rewriteOne (root : String) (cmd : String) (ex : String) : String :=
  let inc := headerInclude root ex
  if listContains inc.data cmd.data then
    ⟨pyReplace inc.data (headerIsystem root ex).data cmd.data⟩
  else cmd

/-- `filter_headers`, lines 177-187: the excludes are all stripped of
leading separators first, then applied in order to a command string. -/
def rewriteCommand (root : String) (excludes : List String) (cmd : String) : String :=
  (excludes.map stripSeps).foldl (rewriteOne root) cmd

/-- `filter_headers`, lines 175-187: when the `isystem` flag is set,
every included entry's `command` is rewritten in place; no other field
is touched.  When the flag is unset the function body does nothing. -/
def filterHeaders (isystem : Bool) (root : String) (excludes : List String)
    (entries : List CompileEntry) : List CompileEntry :=
  if isystem then
    entries.map fun e => { e with command := rewriteCommand root excludes e.command }
  else entries

/-! ### Helper lemmas -/

/-- Python's `in` decides the sublist-infix relation. -/
theorem listContains_iff (n : List Char) : ∀ h : List Char, listContains n h = true ↔ n <:+: h
  | [] => by simp [listContains, List.isEmpty_iff]
  | c :: t => by
    simp [listContains, listContains_iff n t, List.infix_cons_iff]

/-- The partition test: an entry is sent to the excluded side exactly
when some exclude string occurs inside its separator-prefixed relative
directory string. -/
theorem includeFolder_eq_false_iff (root : String) (excl : List String) (e : CompileEntry) :
    includeFolder root excl e = false ↔ ∃ x ∈ excl, x.data <:+: pathStr root e := by
  simp [includeFolder, listContains_iff]

theorem foldl_partition (root : String) (excludes : List String) :
    ∀ (cmds : List CompileEntry) (a b : List CompileEntry),
      cmds.foldl
        (fun acc c =>
          if includeFolder root excludes c then (acc.1 ++ [c], acc.2)
          else (acc.1, acc.2 ++ [c]))
        (a, b)
      = (a ++ cmds.filter (includeFolder root excludes),
         b ++ cmds.filter fun e => !(includeFolder root excludes e))
  | [], a, b => by simp
  | c :: cs, a, b => by
    by_cases hc : includeFolder root excludes c
    · simp only [List.foldl_cons, if_pos hc]
      rw [foldl_partition root excludes cs (a ++ [c]) b]
      simp [List.filter_cons, hc]
    · simp only [List.foldl_cons, if_neg hc]
      rw [foldl_partition root excludes cs a (b ++ [c])]
      simp [List.filter_cons, hc]

/-- The append-loop of `filter_sources` is the pair of order-preserving
filters. -/
theorem filterSources_eq (root : String) (excludes : List String) (cmds : List CompileEntry) :
    filterSources root excludes cmds
      = (cmds.filter (includeFolder root excludes),
         cmds.filter fun e => !(includeFolder root excludes e)) := by
  unfold filterSources
  rw [foldl_partition root excludes cmds [] []]
  simp

theorem length_filter_partition (p : CompileEntry → Bool) :
    ∀ l : List CompileEntry, (l.filter p).length + (l.filter fun e => !(p e)).length = l.length
  | [] => rfl
  | c :: cs => by
    have ih := length_filter_partition p cs
    by_cases hc : p c <;> simp [List.filter_cons, hc] <;> omega

/-! ### C1: partition completeness -/

/-- C1: for every database and exclude list, `filter_sources` puts each
entry into exactly one of the included and excluded lists: the lengths
add up to the database's length, every database entry lands in exactly
one side, and the two sides are disjoint by entry identity. -/
theorem partition_exactly_one (root : String) (excludes : List String) (cmds : List CompileEntry) :
    (filterSources root excludes cmds).1.length + (filterSources root excludes cmds).2.length
        = cmds.length ∧
    (∀ e ∈ cmds,
      (e ∈ (filterSources root excludes cmds).1 ∧ e ∉ (filterSources root excludes cmds).2) ∨
      (e ∈ (filterSources root excludes cmds).2 ∧ e ∉ (filterSources root excludes cmds).1)) ∧
    (∀ e ∈ (filterSources root excludes cmds).1, e ∉ (filterSources root excludes cmds).2) := by
  rw [filterSources_eq]
  refine ⟨length_filter_partition _ cmds, ?_, ?_⟩
  · intro e he
    by_cases hc : includeFolder root excludes e
    · exact Or.inl ⟨List.mem_filter.mpr ⟨he, hc⟩,
        fun hm => by simpa [hc] using (List.mem_filter.mp hm).2⟩
    · exact Or.inr ⟨List.mem_filter.mpr ⟨he, by simpa using hc⟩,
        fun hm => hc ((List.mem_filter.mp hm).2)⟩
  · intro e he hm
    have h1 := (List.mem_filter.mp he).2
    have h2 := (List.mem_filter.mp hm).2
    simp [h1] at h2

/-! ### C4: order preservation -/

/-- C4: each side of the partition lists its entries in the relative
order of the original database: the sides are order-preserving filters
of the database, hence sublists of it. -/
theorem partition_preserves_order (root : String) (excludes : List String)
    (cmds : List CompileEntry) :
    (filterSources root excludes cmds).1 = cmds.filter (includeFolder root excludes) ∧
    (filterSources root excludes cmds).2
        = cmds.filter (fun e => !(includeFolder root excludes e)) ∧
    (filterSources root excludes cmds).1.Sublist cmds ∧
    (filterSources root excludes cmds).2.Sublist cmds := by
  rw [filterSources_eq]
  exact ⟨rfl, rfl, List.filter_sublist cmds, List.filter_sublist cmds⟩

/-! ### C2: separator-prefix matching (corrected) -/

/-- C2, counterexample: the claim says exclude `["foo"]` under root
`/root` must NOT exclude an entry with file `/root/foobar/bar.cpp`; the
code excludes it, because `/foo` is a prefix of the relative directory
string `/foobar`. -/
theorem c2_foobar_is_excluded :
    includeFolder "/root" (readExcludes [["foo"]])
      ⟨"/root/foobar/bar.cpp", "cc -c bar.cpp", []⟩ = false := by decide

/-- C2, amended: exclude `["foo"]` under root `/root` excludes
`/root/foo/bar.cpp` and also excludes `/root/foobar/bar.cpp` (the
pattern `/foo` is a prefix of `/foobar`); the leading separator only
prevents matches where `foo` does not start a path segment, so
`/root/barfoo/bar.cpp` is not excluded. -/
theorem c2_separator_prefix_amended :
    includeFolder "/root" (readExcludes [["foo"]])
      ⟨"/root/foo/bar.cpp", "cc -c bar.cpp", []⟩ = false ∧
    includeFolder "/root" (readExcludes [["foo"]])
      ⟨"/root/foobar/bar.cpp", "cc -c bar.cpp", []⟩ = false ∧
    includeFolder "/root" (readExcludes [["foo"]])
      ⟨"/root/barfoo/bar.cpp", "cc -c bar.cpp", []⟩ = true := by
  exact ⟨by decide, by decide, by decide⟩

/-! ### C3: the test is a plain substring test -/

/-- C3: the partition test is a plain substring test on the
separator-prefixed relative directory string, and on the concrete input
`/root/sub/foo/bar/x.cpp` the excluded path `/foo` matches the relative
directory `/sub/foo/bar` mid-path, so the entry is excluded even though
`foo` is not the first segment under the root. -/
theorem substring_test_matches_midpath :
    (includeFolder "/root" (readExcludes [["foo"]])
        ⟨"/root/sub/foo/bar/x.cpp", "cc -c x.cpp", []⟩ = false ∧
      pathStr "/root" ⟨"/root/sub/foo/bar/x.cpp", "cc -c x.cpp", []⟩ = "/sub/foo/bar".data ∧
      listContains "/foo".data
        (pathStr "/root" ⟨"/root/sub/foo/bar/x.cpp", "cc -c x.cpp", []⟩) = true) ∧
    ∀ (root : String) (excl : List String) (e : CompileEntry),
      includeFolder root excl e = false ↔ ∃ x ∈ excl, x.data <:+: pathStr root e :=
  ⟨⟨by decide, by decide, by decide⟩, includeFolder_eq_false_iff⟩

/-! ### C7: rewrite is a no-op when the flag is unset -/

/-- C7: with the `isystem` flag unset, `filter_headers` returns the
entry list unchanged; in particular every entry's output command string
equals its input command string. -/
theorem filter_headers_noop_when_unset (root : String) (excludes : List String)
    (entries : List CompileEntry) :
    filterHeaders false root excludes entries = entries ∧
    ∀ i : Nat,
      ((filterHeaders false root excludes entries)[i]?).map CompileEntry.command
        = (entries[i]?).map CompileEntry.command :=
  ⟨rfl, fun _ => rfl⟩

/-! ### C9: missing input files -/

/-- C9: a missing config file or compilation database never lets the
pipeline continue: in the default fatal mode (`GRACEFUL_EXIT = False`)
the loader halts with a nonzero status and a descriptive message, in
graceful mode it prints the message and exits with status zero, and
when the file exists the content is accepted without further
validation. -/
theorem missing_input_never_silent (g : Bool) (pc pd : String)
    (raw : List (List String)) (db : List CompileEntry) :
    GRACEFUL_EXIT = false ∧
    readConfig false false pc raw
      = .exitFailure ("** FATAL - directory exclusion configuration is missing:\n" ++ pc) ∧
    readConfig true false pc raw
      = .exitSuccess ("** ERROR - directory exclusion configuration is missing:\n" ++ pc) ∧
    readCommands false false pd db
      = .exitFailure ("** FATAL - CMake-generated compilation database is missing:\n" ++ pd) ∧
    readCommands true false pd db
      = .exitSuccess ("** ERROR - CMake-generated compilation database is missing:\n" ++ pd) ∧
    (∀ l, readConfig g false pc raw ≠ .ok l) ∧
    (∀ l, readCommands g false pd db ≠ .ok l) ∧
    readConfig g true pc raw = .ok (readExcludes raw) ∧
    readCommands g true pd db = .ok db := by
  refine ⟨rfl, rfl, rfl, rfl, rfl, ?_, ?_, ?_, ?_⟩ <;>
    cases g <;> simp [readConfig, readCommands]

/-! ### Replacement lemmas -/

theorem replaceFuel_nil (old new : List Char) (f : Nat) : replaceFuel old new f [] = [] := by
  cases f <;> rfl

/-- A pattern that does not occur is not replaced. -/
theorem replaceFuel_no_occurrence (old new : List Char) :
    ∀ (s : List Char) (f : Nat), ¬ old <:+: s → replaceFuel old new f s = s
  | [], f, _ => replaceFuel_nil old new f
  | _ :: _, 0, _ => rfl
  | c :: t, f + 1, h => by
    have hp : ¬ old.isPrefixOf (c :: t) = true := by
      rw [List.isPrefixOf_iff_prefix]
      exact fun hpre => h (List.infix_cons_iff.mpr (Or.inl hpre))
    simp only [replaceFuel, if_neg hp]
    exact congrArg (c :: ·)
      (replaceFuel_no_occurrence old new t f
        (fun hi => h (List.infix_cons_iff.mpr (Or.inr hi))))

/-- Greedy replacement replaces every occurrence: the input splits into
pattern-free chunks glued by the pattern, and the output is the same
chunks glued by the replacement. -/
theorem replaceFuel_glue (old new : List Char) (h0 : old ≠ []) :
    ∀ (f : Nat) (s : List Char), s.length ≤ f →
      ∃ parts : List (List Char), parts ≠ [] ∧ s = glue old parts ∧
        replaceFuel old new f s = glue new parts ∧ ∀ p ∈ parts, ¬ old <:+: p := by
  intro f
  induction f with
  | zero =>
    intro s hle
    have hs : s = [] := List.length_eq_zero.mp (Nat.le_zero.mp hle)
    subst hs
    refine ⟨[[]], by simp, rfl, by rw [replaceFuel_nil]; rfl, ?_⟩
    intro p hp
    rcases List.mem_cons.mp hp with rfl | hp
    · exact fun hi => h0 (List.infix_nil.mp hi)
    · simp at hp
  | succ f ih =>
    intro s hle
    cases s with
    | nil =>
      refine ⟨[[]], by simp, rfl, by rw [replaceFuel_nil]; rfl, ?_⟩
      intro p hp
      rcases List.mem_cons.mp hp with rfl | hp
      · exact fun hi => h0 (List.infix_nil.mp hi)
      · simp at hp
    | cons c t =>
      by_cases hp : old.isPrefixOf (c :: t)
      · -- the pattern matches here: consume it, recurse on the rest
        obtain ⟨r, hr⟩ := List.isPrefixOf_iff_prefix.mp hp
        have hdrop : t.drop (old.length - 1) = r := by
          cases old with
          | nil => exact absurd rfl h0
          | cons o old' =>
            injection hr with h1 h2
            have h2' : old' ++ r = t := h2
            have hl : (o :: old').length - 1 = old'.length := by simp
            rw [hl, ← h2', List.drop_left]
        have hlen2 : r.length ≤ f := by
          have hlr := congrArg List.length hr
          have hpos : 0 < old.length := List.length_pos.mpr h0
          simp [List.length_append] at hlr hle
          omega
        obtain ⟨ps, hne, hs, hrep, hfree⟩ := ih r hlen2
        obtain ⟨p, ps', rfl⟩ : ∃ p ps', ps = p :: ps' := by
          cases ps with
          | nil => exact absurd rfl hne
          | cons p ps' => exact ⟨p, ps', rfl⟩
        refine ⟨[] :: p :: ps', by simp, ?_, ?_, ?_⟩
        · rw [glue, ← hs]
          simp only [List.nil_append]
          exact hr.symm
        · simp only [replaceFuel, if_pos hp, hdrop, hrep]
          rw [glue]
          simp
        · intro x hx
          rcases List.mem_cons.mp hx with rfl | hx
          · exact fun hi => h0 (List.infix_nil.mp hi)
          · exact hfree x hx
      · -- no match here: keep one character, recurse on the tail
        have hle' : t.length ≤ f := by
          simp at hle
          omega
        obtain ⟨ps, hne, hs, hrep, hfree⟩ := ih t hle'
        obtain ⟨p, ps', rfl⟩ : ∃ p ps', ps = p :: ps' := by
          cases ps with
          | nil => exact absurd rfl hne
          | cons p ps' => exact ⟨p, ps', rfl⟩
        have hpt : p <+: t := by
          cases ps' with
          | nil =>
            simp only [glue] at hs
            exact ⟨[], by simp [hs]⟩
          | cons q ps'' =>
            rw [glue] at hs
            exact ⟨old ++ glue old (q :: ps''), by simp [hs]⟩
        refine ⟨(c :: p) :: ps', by simp, ?_, ?_, ?_⟩
        · cases ps' with
          | nil =>
            simp only [glue] at hs ⊢
            rw [hs]
          | cons q ps'' =>
            rw [glue] at hs ⊢
            simp [hs]
        · simp only [replaceFuel, if_neg hp, hrep]
          cases ps' with
          | nil => simp [glue]
          | cons q ps'' =>
            rw [glue, glue]
            simp
        · intro x hx
          rcases List.mem_cons.mp hx with rfl | hx
          · intro hinf
            rcases List.infix_cons_iff.mp hinf with hpre | hinf'
            · apply hp
              rw [List.isPrefixOf_iff_prefix]
              apply hpre.trans
              obtain ⟨u, hu⟩ := hpt
              exact ⟨u, by simp [hu]⟩
            · exact hfree p (List.mem_cons_self p ps') hinf'
          · exact hfree x (List.mem_cons_of_mem p hx)

/-- The chunk decomposition for `str.replace` itself. -/
theorem pyReplace_glue (old new : List Char) (h0 : old ≠ []) (s : List Char) :
    ∃ parts : List (List Char), parts ≠ [] ∧ s = glue old parts ∧
      pyReplace old new s = glue new parts ∧ ∀ p ∈ parts, ¬ old <:+: p :=
  replaceFuel_glue old new h0 s.length s (Nat.le_refl _)

/-- The plain-include pattern always starts with `-I`, so it is never
empty. -/
theorem headerInclude_data_ne_nil (root ex : String) : (headerInclude root ex).data ≠ [] := by
  show ('-' :: 'I' :: (pathJoin root ex).data) ≠ []
  simp

/-- One step of the inner rewrite loop of `filter_headers`: the command
splits into chunks free of the plain-include form, glued by it, and the
rewritten command is the same chunks glued by the system-include
form. -/
theorem rewriteOne_glue (root ex cmd : String) :
    ∃ parts : List (List Char), parts ≠ [] ∧
      cmd.data = glue (headerInclude root ex).data parts ∧
      (rewriteOne root cmd ex).data = glue (headerIsystem root ex).data parts ∧
      ∀ p ∈ parts, ¬ (headerInclude root ex).data <:+: p := by
  unfold rewriteOne
  by_cases hc : listContains (headerInclude root ex).data cmd.data
  · simp only [if_pos hc]
    exact pyReplace_glue _ _ (headerInclude_data_ne_nil root ex) cmd.data
  · simp only [if_neg hc]
    refine ⟨[cmd.data], by simp, rfl, rfl, ?_⟩
    intro p hp
    rcases List.mem_cons.mp hp with rfl | hp
    · exact fun hinf => hc ((listContains_iff _ _).mpr hinf)
    · simp at hp

/-! ### C5: the rewrite replaces all occurrences and only the command -/

/-- C5: with the flag set, `filter_headers` maps each included entry to
the same entry with only its `command` rewritten (file and all other
fields unchanged), and for each excluded path the rewrite replaces
every occurrence of the plain-include form by the system-include form:
the command decomposes into occurrence-free chunks glued by the
plain-include form, and the result is those chunks glued by the
system-include form. -/
theorem filter_headers_rewrites_all (root : String) (excludes : List String)
    (entries : List CompileEntry) :
    (∀ i : Nat,
      (filterHeaders true root excludes entries)[i]?
        = (entries[i]?).map fun e =>
            { e with command := rewriteCommand root excludes e.command }) ∧
    ∀ ex cmd : String, ∃ parts : List (List Char), parts ≠ [] ∧
      cmd.data = glue (headerInclude root ex).data parts ∧
      (rewriteOne root cmd ex).data = glue (headerIsystem root ex).data parts ∧
      ∀ p ∈ parts, ¬ (headerInclude root ex).data <:+: p := by
  constructor
  · intro i
    simp [filterHeaders]
  · exact rewriteOne_glue root

/-! ### C6: idempotence of the rewrite (corrected) -/

/-- C6, counterexample: the rewrite is not idempotent for every exclude
list.  With root `/r` and the exclude built from `["x-I","r","x"]`, the
replacement of `-I/r/x-I/r/x` inside the command
`-I/r/x-I/r/x-I/r/x` re-creates an occurrence of the plain-include form
at the boundary of the inserted text, so a second run changes the
command again. -/
theorem rewrite_twice_differs :
    rewriteCommand "/r" ["/x-I/r/x"]
        (rewriteCommand "/r" ["/x-I/r/x"] "-I/r/x-I/r/x-I/r/x")
      ≠ rewriteCommand "/r" ["/x-I/r/x"] "-I/r/x-I/r/x-I/r/x" := by decide

/-- C6, amended: running the rewrite twice yields the same command as
running it once whenever no plain-include form still occurs in the
output of the first run (which the first run does not guarantee in
general, as the counterexample shows). -/
theorem rewrite_idempotent_when_cleared (root : String) (excludes : List String) (cmd : String)
    (h : ((excludes.map stripSeps).all fun ex =>
        !(listContains (headerInclude root ex).data
          (rewriteCommand root excludes cmd).data)) = true) :
    rewriteCommand root excludes (rewriteCommand root excludes cmd)
      = rewriteCommand root excludes cmd := by
  have key : ∀ (l : List String) (t : String),
      (∀ ex ∈ l, listContains (headerInclude root ex).data t.data = false) →
      l.foldl (rewriteOne root) t = t := by
    intro l
    induction l with
    | nil => intro t _; rfl
    | cons ex l ih =>
      intro t ht
      have h1 : rewriteOne root t ex = t := by
        unfold rewriteOne
        rw [if_neg]
        simp [ht ex (List.mem_cons_self ex l)]
      rw [List.foldl_cons, h1]
      exact ih t fun x hx => ht x (List.mem_cons_of_mem ex hx)
  apply key
  intro ex hex
  simpa using List.all_eq_true.mp h ex hex

theorem rewrite_idempotent_witness :
    (((["/foo"] : List String).map stripSeps).all fun ex =>
        !(listContains (headerInclude "/r" ex).data
          (rewriteCommand "/r" ["/foo"] "cc -I/r/foo a.cpp").data)) = true ∧
    rewriteCommand "/r" ["/foo"] (rewriteCommand "/r" ["/foo"] "cc -I/r/foo a.cpp")
      = rewriteCommand "/r" ["/foo"] "cc -I/r/foo a.cpp" :=
  ⟨by decide, rewrite_idempotent_when_cleared "/r" ["/foo"] "cc -I/r/foo a.cpp" (by decide)⟩

/-! ### C8: the exclude order does not matter -/

/-- C8: the include/exclude decision for an entry is invariant under
permuting the exclude list, and the entry is excluded exactly when some
excluded path occurs inside its separator-prefixed relative directory
string. -/
theorem exclude_order_irrelevant (root : String) (e : CompileEntry) (ex1 ex2 : List String)
    (h : ex1.Perm ex2) :
    includeFolder root ex1 e = includeFolder root ex2 e ∧
    (includeFolder root ex1 e = false ↔ ∃ x ∈ ex1, x.data <:+: pathStr root e) := by
  constructor
  · unfold includeFolder
    congr 1
    rw [Bool.eq_iff_iff]
    simp only [List.any_eq_true]
    exact ⟨fun ⟨x, hx, hq⟩ => ⟨x, h.mem_iff.mp hx, hq⟩,
           fun ⟨x, hx, hq⟩ => ⟨x, h.mem_iff.mpr hx, hq⟩⟩
  · exact includeFolder_eq_false_iff root ex1 e

theorem exclude_order_irrelevant_witness :
    (["/a", "/b"] : List String).Perm ["/b", "/a"] ∧
    includeFolder "/r" ["/a", "/b"] ⟨"/r/a/x.cpp", "cc", []⟩
      = includeFolder "/r" ["/b", "/a"] ⟨"/r/a/x.cpp", "cc", []⟩ :=
  ⟨List.Perm.swap "/b" "/a" [],
   (exclude_order_irrelevant "/r" ⟨"/r/a/x.cpp", "cc", []⟩ ["/a", "/b"] ["/b", "/a"]
      (List.Perm.swap "/b" "/a" [])).1⟩

/-! ### C10: an empty inner config array excludes everything -/

/-- C10: an empty inner array in the config yields the exclude string
`/` (the separator alone); every entry's separator-prefixed relative
directory string starts with the separator, so every entry is excluded
and the included list is empty. -/
theorem empty_exclude_entry_excludes_all (root : String) (cfg : List (List String))
    (cmds : List CompileEntry) (h : [] ∈ cfg) :
    mkExclude [] = "/" ∧ "/" ∈ readExcludes cfg ∧
    (filterSources root (readExcludes cfg) cmds).1 = [] ∧
    (filterSources root (readExcludes cfg) cmds).2 = cmds := by
  have hmem : "/" ∈ readExcludes cfg := List.mem_map.mpr ⟨[], h, rfl⟩
  have hexc : ∀ e : CompileEntry, includeFolder root (readExcludes cfg) e = false := by
    intro e
    rw [includeFolder_eq_false_iff]
    exact ⟨"/", hmem, [], relpathAbs (dirname e.file.data) root.data, rfl⟩
  rw [filterSources_eq]
  refine ⟨rfl, hmem, ?_, ?_⟩
  · exact List.filter_eq_nil_iff.mpr fun e _ => by simp [hexc e]
  · exact List.filter_eq_self.mpr fun e _ => by simp [hexc e]

theorem empty_exclude_entry_witness :
    ([] : List String) ∈ [([] : List String)] ∧
    (filterSources "/root" (readExcludes [[]]) [⟨"/root/a/x.cpp", "cc", []⟩]).1 = [] :=
  ⟨by decide,
   (empty_exclude_entry_excludes_all "/root" [[]] [⟨"/root/a/x.cpp", "cc", []⟩] (by decide)).2.2.1⟩

end FilterClangTidy
